import Mathlib

/-!
Verification of the `code-clean` tool (src/main.rs) against its
natural-language specification.

The development shallowly embeds the program's data model and operations:

* the bounded child-process pool `ChildrenManager` (`kids : Vec<ChildProcess>`,
  `max_kids`) becomes `CM` with `kids : List Nat` (children identified by pid);
* `Vec::swap_remove` becomes `swapRemove`;
* `try_wait_remove` / `wait_remove` / `push_wait` become `tryWaitRemoveCM`,
  `waitRemove`, `pushWait`, parameterised by environment oracles:
  `exited : Nat → Bool` answers the non-blocking `try_wait` poll for a pid, and
  `pick : (l : List Nat) → Option (Fin l.length × Nat)` models the return value
  of the blocking `os_wait::wait_on_children` call (`none` = the OS wait
  returned an error, which the code only logs; `some (idx, status)` = the
  child at `idx` exited with raw wait status `status` — by construction
  `wait_on_children` either errors, aborts/panics (and then never returns),
  or returns a valid index into the live set, so a dependent index oracle is
  the faithful model of its *returns*);
* operations additionally emit an event trace (`Ev`) recording, in program
  order, registration of a child in the live set, invocations of the
  non-blocking poll pass and of the blocking wait, reaps, and logged OS wait
  errors.

Machine integers (`usize` pids, capacities) are modelled as `Nat`: none of the
verified claims involve overflow, and the program never performs wrapping
arithmetic on them.
-/

namespace CodeClean

/-- Model of `Vec::swap_remove(i)`: the element at `i` is removed and replaced
by the last element (the final element of the vector is popped).  Total
function; callers only use it with `i < l.length`. -/
def swapRemove (l : List Nat) (i : Nat) : List Nat :=
  (l.set i (l.getLast?.getD 0)).dropLast

theorem length_swapRemove (l : List Nat) (i : Nat) :
    (swapRemove l i).length = l.length - 1 := by
  simp [swapRemove]

theorem swapRemove_cons_succ (x : Nat) (xs : List Nat) (i : Nat) (h : i < xs.length) :
    swapRemove (x :: xs) (i + 1) = x :: swapRemove xs i := by
  match xs, h with
  | y :: ys, _ =>
    simp [swapRemove, List.getLast?_cons_cons]
    cases hset : (y :: ys).set i ((y :: ys).getLast?.getD 0) with
    | nil => simp at hset
    | cons a as => simp [hset]

/-- Restoring the last element in front of `dropLast` is a permutation. -/
theorem getLast_cons_dropLast_perm (l : List Nat) (hl : l ≠ []) :
    (l.getLast?.getD 0 :: l.dropLast).Perm l := by
  have h1 : l.getLast?.getD 0 = l.getLast hl := by
    rw [List.getLast?_eq_getLast l hl]
    rfl
  have h2 : (l.getLast hl :: l.dropLast).Perm (l.dropLast ++ [l.getLast hl]) :=
    (List.perm_append_singleton _ _).symm
  have h3 : l.dropLast ++ [l.getLast hl] = l := List.dropLast_append_getLast hl
  rw [h1]
  rw [h3] at h2
  exact h2

/-- `swap_remove` only permutes: putting the removed element back in front
gives a permutation of the original vector. -/
theorem swapRemove_perm : ∀ (i : Nat) (l : List Nat) (h : i < l.length),
    (l[i] :: swapRemove l i).Perm l := by
  intro i
  induction i with
  | zero =>
    intro l h
    match l with
    | x :: xs =>
      show (x :: swapRemove (x :: xs) 0).Perm (x :: xs)
      have : swapRemove (x :: xs) 0 = ((x :: xs).getLast?.getD 0 :: xs).dropLast := by
        simp [swapRemove]
      rw [this]
      match xs with
      | [] => simp
      | y :: ys =>
        have hd : (((x :: y :: ys).getLast?.getD 0) :: y :: ys).dropLast
            = ((y :: ys).getLast?.getD 0) :: (y :: ys).dropLast := by
          simp [List.getLast?_cons_cons]
        rw [hd]
        exact List.Perm.cons x (getLast_cons_dropLast_perm (y :: ys) (by simp))
  | succ i ih =>
    intro l h
    match l, h with
    | x :: xs, h =>
      have hx : i < xs.length := by simpa using Nat.lt_of_succ_lt_succ h
      rw [swapRemove_cons_succ x xs i hx]
      have hget : (x :: xs)[i + 1] = xs[i] := by simp
      rw [hget]
      exact ((List.Perm.swap x xs[i] (swapRemove xs i)).trans
        (List.Perm.cons x (ih xs hx)))

/-! ## The live set and the pool operations -/

/-- The state of `ChildrenManager` that the claims are about: the live set of
child processes (`kids`, identified by pid, in `Vec` order) and the configured
capacity `max_kids`.  The locked stdio handles and the verbosity flag carry no
verified behaviour and are omitted. -/
structure CM where
  kids : List Nat
  maxKids : Nat
deriving Repr, DecidableEq

/-- One observable action of the pool, in program order. -/
inductive Ev where
  /-- `self.kids.push(kid)`: the child is registered in the live set. -/
  | reg (pid : Nat)
  /-- `try_wait_remove` is invoked (a non-blocking poll pass begins). -/
  | pollPass
  /-- a child is reaped: observed exited and removed from the live set. -/
  | reap (pid : Nat)
  /-- the blocking `wait_on_children` call is invoked. -/
  | waitCall
  /-- the blocking wait returned an OS error; it is logged, nothing removed. -/
  | waitErr
deriving Repr, DecidableEq

/-- The pids reaped in a trace. -/
def reapedOf (evs : List Ev) : List Nat :=
  evs.filterMap fun e => match e with | .reap p => some p | _ => none

@[simp] theorem reapedOf_nil : reapedOf [] = [] := rfl

@[simp] theorem reapedOf_append (a b : List Ev) :
    reapedOf (a ++ b) = reapedOf a ++ reapedOf b := by
  simp [reapedOf]

@[simp] theorem reapedOf_cons_reap (p : Nat) (evs : List Ev) :
    reapedOf (.reap p :: evs) = p :: reapedOf evs := rfl

@[simp] theorem reapedOf_cons_pollPass (evs : List Ev) :
    reapedOf (.pollPass :: evs) = reapedOf evs := rfl

@[simp] theorem reapedOf_cons_reg (p : Nat) (evs : List Ev) :
    reapedOf (.reg p :: evs) = reapedOf evs := rfl

@[simp] theorem reapedOf_cons_waitCall (evs : List Ev) :
    reapedOf (.waitCall :: evs) = reapedOf evs := rfl

@[simp] theorem reapedOf_cons_waitErr (evs : List Ev) :
    reapedOf (.waitErr :: evs) = reapedOf evs := rfl

/-- The loop body of `ChildrenManager::try_wait_remove`:

    let mut i = 0;
    while i < self.kids.len() {
        if self.kids[i].try_wait_log(&mut self.stderr)? {
            self.kids.swap_remove(i);
        } else {
            i += 1;
        }
    }

`exited pid` answers `try_wait`'s poll (did this child already exit?).  The
returned trace lists the reaps in the order they happen.  I/O errors of the
logging writes are not modelled (the diagnostic streams are treated as
infallible observation channels). -/
def tryWaitRemoveAux (exited : Nat → Bool) (i : Nat) (kids : List Nat) :
    List Nat × List Ev :=
  if h : i < kids.length then
    if exited kids[i] then
      let r := tryWaitRemoveAux exited i (swapRemove kids i)
      (r.1, .reap kids[i] :: r.2)
    else
      tryWaitRemoveAux exited (i + 1) kids
  else
    (kids, [])
termination_by kids.length - i
decreasing_by
  · have := length_swapRemove kids i
    omega
  · omega

/-- `ChildrenManager::try_wait_remove` on the manager state. -/
def tryWaitRemoveCM (exited : Nat → Bool) (st : CM) : CM × List Ev :=
  let r := tryWaitRemoveAux exited 0 st.kids
  ({ st with kids := r.1 }, .pollPass :: r.2)

/-- `ChildrenManager::wait_remove`:

    match os_wait::wait_on_children(&self.kids) {
        Err(err) => self.stderr.log_os_err(err),
        Ok((status, idx)) => self.kids.swap_remove(idx).log_output(status, ..),
    }

`pick` models the *return value* of the blocking wait: `none` is the `Err`
branch (logged, nothing removed), `some (idx, status)` a valid index into the
live set together with the child's exit status. -/
def waitRemove (pick : (l : List Nat) → Option (Fin l.length × Nat)) (st : CM) :
    CM × List Ev :=
  match pick st.kids with
  | none => (st, [.waitCall, .waitErr])
  | some (idx, _status) =>
      ({ st with kids := swapRemove st.kids idx }, [.waitCall, .reap (st.kids.get idx)])

/-- `ChildrenManager::push_wait`:

    self.kids.push(kid);              // register FIRST (see comment in source)
    if self.kids.len() >= self.max_kids { self.try_wait_remove()?; }
    if self.kids.len() >= self.max_kids { self.wait_remove()?; }
-/
def pushWait (exited : Nat → Bool)
    (pick : (l : List Nat) → Option (Fin l.length × Nat))
    (st : CM) (pid : Nat) : CM × List Ev :=
  let st1 : CM := { st with kids := st.kids ++ [pid] }
  let r1 := if st1.kids.length ≥ st1.maxKids then tryWaitRemoveCM exited st1
            else (st1, [])
  let r2 := if r1.1.kids.length ≥ r1.1.maxKids then waitRemove pick r1.1
            else (r1.1, [])
  (r2.1, .reg pid :: (r1.2 ++ r2.2))

/-! ## Specification of the non-blocking reap pass -/

theorem take_set_le (l : List Nat) (i j : Nat) (a : Nat) (h : j ≤ i) :
    (l.set i a).take j = l.take j := by
  apply List.ext_getElem
  · simp
  · intro n h1 h2
    have hn : n < j := by simp [List.length_take] at h1; omega
    simp only [List.getElem_take]
    rw [List.getElem_set_ne (by omega)]

theorem take_swapRemove (l : List Nat) (i : Nat) (h : i < l.length) :
    (swapRemove l i).take i = l.take i := by
  have h1 : swapRemove l i = (l.set i (l.getLast?.getD 0)).take (l.length - 1) := by
    rw [swapRemove, List.dropLast_eq_take, List.length_set]
  rw [h1, List.take_take, Nat.min_eq_left (by omega), take_set_le l i i _ (le_refl i)]

/-- What one full poll pass does, as a function of the already-exited set:
starting the scan at `i` with the first `i` entries known still-running, the
surviving vector is (a permutation of) the still-running children and the
reaped trace (a permutation of) the already-exited children. -/
theorem tryWaitRemoveAux_spec (exited : Nat → Bool) :
    ∀ (i : Nat) (kids : List Nat), (∀ x ∈ kids.take i, exited x = false) →
    ((tryWaitRemoveAux exited i kids).1.Perm (kids.filter fun p => !exited p)) ∧
    ((reapedOf (tryWaitRemoveAux exited i kids).2).Perm
      (kids.filter fun p => exited p)) := by
  intro i kids
  induction i, kids using tryWaitRemoveAux.induct exited with
  | case1 i kids h hex ih =>
    intro hpre
    have hpre' : ∀ x ∈ (swapRemove kids i).take i, exited x = false := by
      rw [take_swapRemove kids i h]; exact hpre
    obtain ⟨ih1, ih2⟩ := ih hpre'
    have sperm := swapRemove_perm i kids h
    have hf1 : ((kids[i] :: swapRemove kids i).filter fun p => !exited p).Perm
        (kids.filter fun p => !exited p) := sperm.filter _
    have hf2 : ((kids[i] :: swapRemove kids i).filter fun p => exited p).Perm
        (kids.filter fun p => exited p) := sperm.filter _
    rw [List.filter_cons_of_neg (by simp [hex])] at hf1
    rw [List.filter_cons_of_pos (by simp [hex])] at hf2
    rw [tryWaitRemoveAux]
    simp only [dif_pos h, if_pos hex]
    constructor
    · exact ih1.trans hf1
    · rw [reapedOf_cons_reap]
      exact (ih2.cons kids[i]).trans hf2
  | case2 i kids h hex ih =>
    intro hpre
    have hpre' : ∀ x ∈ kids.take (i + 1), exited x = false := by
      intro x hx
      rw [List.take_succ] at hx
      rcases List.mem_append.mp hx with hx1 | hx2
      · exact hpre x hx1
      · rw [List.getElem?_eq_getElem h] at hx2
        simp only [Option.toList_some, List.mem_singleton] at hx2
        rw [hx2]
        simpa using hex
    obtain ⟨ih1, ih2⟩ := ih hpre'
    rw [tryWaitRemoveAux]
    simp only [dif_pos h, if_neg hex]
    exact ⟨ih1, ih2⟩
  | case3 i kids h =>
    intro hpre
    have hall : ∀ x ∈ kids, exited x = false := by
      intro x hx
      exact hpre x (by rwa [List.take_of_length_le (by omega)])
    rw [tryWaitRemoveAux]
    simp only [dif_neg h]
    constructor
    · rw [List.filter_eq_self.mpr (by intro x hx; simp [hall x hx])]
    · rw [List.filter_eq_nil_iff.mpr (by intro x hx; simp [hall x hx])]
      simp [reapedOf]

theorem tryWaitRemoveCM_kids_perm (exited : Nat → Bool) (st : CM) :
    (tryWaitRemoveCM exited st).1.kids.Perm (st.kids.filter fun p => !exited p) :=
  (tryWaitRemoveAux_spec exited 0 st.kids (by simp)).1

theorem tryWaitRemoveCM_reaped_perm (exited : Nat → Bool) (st : CM) :
    (reapedOf (tryWaitRemoveCM exited st).2).Perm
      (st.kids.filter fun p => exited p) := by
  have h := (tryWaitRemoveAux_spec exited 0 st.kids (by simp)).2
  simpa [tryWaitRemoveCM] using h

@[simp] theorem tryWaitRemoveCM_maxKids (exited : Nat → Bool) (st : CM) :
    (tryWaitRemoveCM exited st).1.maxKids = st.maxKids := rfl

@[simp] theorem waitRemove_maxKids (pick : (l : List Nat) → Option (Fin l.length × Nat))
    (st : CM) : (waitRemove pick st).1.maxKids = st.maxKids := by
  rw [waitRemove]
  cases pick st.kids with
  | none => rfl
  | some v => rfl

/-! ## Bookkeeping algebra of the pool operations -/

/-- A reap pass conserves children: survivors plus reaped pids are a
permutation of the original live set. -/
theorem tryWaitRemoveCM_conserves (exited : Nat → Bool) (st : CM) :
    ((tryWaitRemoveCM exited st).1.kids ++
      reapedOf (tryWaitRemoveCM exited st).2).Perm st.kids := by
  have h1 := tryWaitRemoveCM_kids_perm exited st
  have h2 := tryWaitRemoveCM_reaped_perm exited st
  have h3 := h1.append h2
  have h4 : ((st.kids.filter fun p => !exited p) ++
      (st.kids.filter fun p => exited p)).Perm st.kids := by
    have := List.filter_append_perm (fun p => exited p) st.kids
    exact List.perm_append_comm.trans this
  exact h3.trans h4

theorem waitRemove_conserves (pick : (l : List Nat) → Option (Fin l.length × Nat))
    (st : CM) :
    ((waitRemove pick st).1.kids ++
      reapedOf (waitRemove pick st).2).Perm st.kids := by
  rw [waitRemove]
  cases hp : pick st.kids with
  | none => simp [reapedOf]
  | some v =>
    obtain ⟨idx, status⟩ := v
    simp only [reapedOf, List.filterMap]
    have hperm := swapRemove_perm idx.1 st.kids idx.2
    have hget : st.kids.get idx = st.kids[idx.1] := rfl
    have h1 : (swapRemove st.kids idx.1 ++ [st.kids[idx.1]]).Perm
        (st.kids[idx.1] :: swapRemove st.kids idx.1) :=
      List.perm_append_singleton _ _
    simpa [hget] using h1.trans hperm

/-- Composing two reap phases: if phase one turns `S` into `A` reaping `ra`,
and phase two turns `A` into `B` reaping `rb`, children are conserved. -/
theorem reap_compose (S A B ra rb : List Nat)
    (h1 : (A ++ ra).Perm S) (h2 : (B ++ rb).Perm A) :
    (B ++ (ra ++ rb)).Perm S := by
  have hc : (B ++ (ra ++ rb)).Perm ((B ++ rb) ++ ra) := by
    rw [List.append_assoc]
    exact List.Perm.append_left B List.perm_append_comm
  exact hc.trans ((h2.append_right ra).trans h1)

@[simp] theorem pushWait_maxKids (exited : Nat → Bool)
    (pick : (l : List Nat) → Option (Fin l.length × Nat)) (st : CM) (pid : Nat) :
    (pushWait exited pick st pid).1.maxKids = st.maxKids := by
  simp only [pushWait]
  split
  · split
    · simp
    · simp
  · simp

/-- `push_wait` conserves children: the live set after it, plus everything it
reaped, is a permutation of the live set before plus the new child. -/
theorem pushWait_conserves (exited : Nat → Bool)
    (pick : (l : List Nat) → Option (Fin l.length × Nat)) (st : CM) (pid : Nat) :
    ((pushWait exited pick st pid).1.kids ++
      reapedOf (pushWait exited pick st pid).2).Perm (st.kids ++ [pid]) := by
  simp only [pushWait, reapedOf_cons_reg, reapedOf_append]
  split
  · split
    · exact reap_compose _ _ _ _ _ (tryWaitRemoveCM_conserves exited _)
        (waitRemove_conserves pick _)
    · refine reap_compose _ _ _ _ _ (tryWaitRemoveCM_conserves exited _) ?_
      simp
  · simp

theorem tryWaitRemoveCM_length_le (exited : Nat → Bool) (st : CM) :
    (tryWaitRemoveCM exited st).1.kids.length ≤ st.kids.length := by
  rw [(tryWaitRemoveCM_kids_perm exited st).length_eq]
  exact List.length_filter_le _ _

/-- The inductive capacity invariant of one submit: starting strictly below
capacity (with capacity at least 1 and blocking waits that succeed on a
non-empty live set), `push_wait` ends strictly below capacity again. -/
theorem pushWait_length_lt (exited : Nat → Bool)
    (pick : (l : List Nat) → Option (Fin l.length × Nat)) (st : CM) (pid : Nat)
    (hcap : 1 ≤ st.maxKids)
    (hpick : ∀ l : List Nat, l ≠ [] → (pick l).isSome)
    (hlen : st.kids.length < st.maxKids) :
    (pushWait exited pick st pid).1.kids.length < st.maxKids := by
  simp only [pushWait]
  split
  case isTrue h1 =>
    set A : CM := (tryWaitRemoveCM exited { st with kids := st.kids ++ [pid] }).1 with hA
    have hAmax : A.maxKids = st.maxKids := by rw [hA]; simp
    have hAle : A.kids.length ≤ st.kids.length + 1 := by
      have := tryWaitRemoveCM_length_le exited { st with kids := st.kids ++ [pid] }
      simpa using this
    split
    case isTrue h2 =>
      have h2' : A.kids.length ≥ A.maxKids := h2
      show (waitRemove pick A).1.kids.length < st.maxKids
      have hne : A.kids ≠ [] := by
        intro hnil
        rw [hnil] at h2'
        simp [hAmax] at h2'
        omega
      have hsome := hpick A.kids hne
      rw [Option.isSome_iff_exists] at hsome
      obtain ⟨v, hv⟩ := hsome
      obtain ⟨idx, status⟩ := v
      simp only [waitRemove, hv]
      rw [length_swapRemove]
      have hpos : 0 < A.kids.length := List.length_pos.mpr hne
      omega
    case isFalse h2 =>
      have h2' : ¬ A.kids.length ≥ A.maxKids := h2
      show A.kids.length < st.maxKids
      rw [hAmax] at h2'
      omega
  case isFalse h1 =>
    show (st.kids ++ [pid]).length < st.maxKids
    simp only [ge_iff_le, not_le] at h1
    simpa using h1

/-! ## The claims about the pool in isolation: C1, C3, C9 -/

/-- One submitted action with its environment: the pid of the spawned child,
the answers of the non-blocking `try_wait` polls during this submit, and the
return value of the blocking wait (should it be reached). -/
structure Step where
  pid : Nat
  exited : Nat → Bool
  pick : (l : List Nat) → Option (Fin l.length × Nat)

def poolStep (s : Step) (st : CM) : CM := (pushWait s.exited s.pick st s.pid).1

/-- Pool states observed at startup and immediately after each completed
submit. -/
def poolStates (cap : Nat) (steps : List Step) : List CM :=
  steps.scanl (fun st s => poolStep s st) { kids := [], maxKids := cap }

/-- The momentary maximum of the live-set size during each submit.  Inside
`push_wait` the live set only ever shrinks after the initial `kids.push`, so
its momentary maximum is the size just after that push: one more than the
size when the submit began. -/
def poolPeaks (cap : Nat) (steps : List Step) : List Nat :=
  ((poolStates cap steps).zip steps).map fun q => q.1.kids.length + 1

theorem poolStates_inv (steps : List Step) : ∀ (st0 : CM),
    st0.kids.length < st0.maxKids →
    1 ≤ st0.maxKids →
    (∀ s ∈ steps, ∀ l : List Nat, l ≠ [] → (s.pick l).isSome) →
    ∀ st ∈ steps.scanl (fun st s => poolStep s st) st0,
      st.kids.length < st0.maxKids ∧ st.maxKids = st0.maxKids := by
  induction steps with
  | nil =>
    intro st0 hlen hcap _ st hst
    rw [List.scanl_nil] at hst
    simp at hst
    simp [hst, hlen]
  | cons s rest ih =>
    intro st0 hlen hcap hpick st hst
    rw [List.scanl_cons] at hst
    rcases List.mem_cons.mp hst with h | h
    · simp [h, hlen]
    · have hnext : (poolStep s st0).kids.length < (poolStep s st0).maxKids ∧
          (poolStep s st0).maxKids = st0.maxKids := by
        constructor
        · rw [poolStep, pushWait_maxKids]
          exact pushWait_length_lt s.exited s.pick st0 s.pid hcap
            (hpick s (by simp)) hlen
        · rw [poolStep, pushWait_maxKids]
      obtain ⟨hn1, hn2⟩ := hnext
      have := ih (poolStep s st0) hn1 (hn2 ▸ hcap)
        (fun s' hs' => hpick s' (by simp [hs'])) st h
      rw [hn2] at this
      exact this

/-- C1.  For every configured capacity (a positive integer, per the data
model) and every sequence of submitted actions, the live-set size sampled
immediately after any `push_wait` completes never exceeds the capacity, and
the momentary maximum during any submit is at most the capacity.  The
hypothesis on `pick` is the OS waiter's contract (§4.4): a blocking wait on a
non-empty live set returns an exited tracked child. -/
theorem pool_capacity_invariant (cap : Nat) (steps : List Step)
    (hcap : 1 ≤ cap)
    (hpick : ∀ s ∈ steps, ∀ l : List Nat, l ≠ [] → (s.pick l).isSome) :
    (∀ st ∈ poolStates cap steps, st.kids.length ≤ cap) ∧
    (∀ pk ∈ poolPeaks cap steps, pk ≤ cap) := by
  have hinv := poolStates_inv steps { kids := [], maxKids := cap }
    (by simpa using hcap) hcap hpick
  constructor
  · intro st hst
    exact Nat.le_of_lt (hinv st hst).1
  · intro pk hpk
    rw [poolPeaks] at hpk
    rcases List.mem_map.mp hpk with ⟨q, hq, hqe⟩
    have hlt := (hinv q.1 (List.of_mem_zip hq).1).1
    have hm : ({ kids := [], maxKids := cap } : CM).maxKids = cap := rfl
    rw [hm] at hlt
    omega

/-- A concrete blocking-wait oracle that reports the first live child. -/
def pickFirst : (l : List Nat) → Option (Fin l.length × Nat) := fun l =>
  match l with
  | [] => none
  | _ :: _ => some (⟨0, Nat.succ_pos _⟩, 0)

def stepA : Step := { pid := 7, exited := fun _ => false, pick := pickFirst }

theorem pool_capacity_invariant_witness :
    (1 ≤ 1) ∧
    (∀ s ∈ [stepA], ∀ l : List Nat, l ≠ [] → (s.pick l).isSome) ∧
    ((∀ st ∈ poolStates 1 [stepA], st.kids.length ≤ 1) ∧
     (∀ pk ∈ poolPeaks 1 [stepA], pk ≤ 1)) := by
  have hpick : ∀ s ∈ [stepA], ∀ l : List Nat, l ≠ [] → (s.pick l).isSome := by
    intro s hs l hl
    have hsA : s = stepA := by simpa using hs
    subst hsA
    cases l with
    | nil => exact absurd rfl hl
    | cons a t => rfl
  exact ⟨le_refl 1, hpick, pool_capacity_invariant 1 [stepA] (le_refl 1) hpick⟩

theorem tryWaitRemoveAux_no_reg (exited : Nat → Bool) :
    ∀ (i : Nat) (kids : List Nat) (e : Ev),
      e ∈ (tryWaitRemoveAux exited i kids).2 → ∀ q : Nat, e ≠ .reg q := by
  intro i kids
  induction i, kids using tryWaitRemoveAux.induct exited with
  | case1 i kids h hex ih =>
    intro e he q
    rw [tryWaitRemoveAux] at he
    simp only [dif_pos h, if_pos hex] at he
    rcases List.mem_cons.mp he with h1 | h1
    · simp [h1]
    · exact ih e h1 q
  | case2 i kids h hex ih =>
    intro e he q
    rw [tryWaitRemoveAux] at he
    simp only [dif_pos h, if_neg hex] at he
    exact ih e he q
  | case3 i kids h =>
    intro e he q
    rw [tryWaitRemoveAux] at he
    simp only [dif_neg h] at he
    simp at he

theorem tryWaitRemoveCM_no_reg (exited : Nat → Bool) (s : CM) :
    ∀ e ∈ (tryWaitRemoveCM exited s).2, ∀ q : Nat, e ≠ Ev.reg q := by
  intro e he q
  simp only [tryWaitRemoveCM] at he
  rcases List.mem_cons.mp he with h | h
  · simp [h]
  · exact tryWaitRemoveAux_no_reg exited 0 _ e h q

theorem waitRemove_no_reg (pick : (l : List Nat) → Option (Fin l.length × Nat))
    (s : CM) : ∀ e ∈ (waitRemove pick s).2, ∀ q : Nat, e ≠ Ev.reg q := by
  intro e he q
  rw [waitRemove] at he
  cases hp : pick s.kids with
  | none =>
    rw [hp] at he
    simp only [List.mem_cons, List.mem_singleton] at he
    rcases he with h | h
    · simp [h]
    · simp at h
      simp [h]
  | some v =>
    obtain ⟨idx, status⟩ := v
    rw [hp] at he
    simp only [List.mem_cons, List.mem_singleton] at he
    rcases he with h | h
    · simp [h]
    · simp at h
      simp [h]

theorem ite_twr_no_reg (exited : Nat → Bool) (c : Prop) [Decidable c] (s : CM) :
    ∀ e ∈ (if c then tryWaitRemoveCM exited s else (s, [])).2, ∀ q : Nat,
      e ≠ Ev.reg q := by
  intro e he q
  by_cases hc : c
  · rw [if_pos hc] at he
    exact tryWaitRemoveCM_no_reg exited s e he q
  · rw [if_neg hc] at he
    simp at he

theorem ite_waitRemove_no_reg (pick : (l : List Nat) → Option (Fin l.length × Nat))
    (c : Prop) [Decidable c] (s : CM) :
    ∀ e ∈ (if c then waitRemove pick s else (s, [])).2, ∀ q : Nat,
      e ≠ Ev.reg q := by
  intro e he q
  by_cases hc : c
  · rw [if_pos hc] at he
    exact waitRemove_no_reg pick s e he q
  · rw [if_neg hc] at he
    simp at he

/-- C3.  In every submit, the new child is registered in the live set first:
the very first observable action of `push_wait` is the registration, and no
registration happens later in the submit — in particular every poll pass and
every blocking wait during the submit runs with the new child already
tracked, so a wait can never observe the exit of an untracked process. -/
theorem pushWait_registers_first (exited : Nat → Bool)
    (pick : (l : List Nat) → Option (Fin l.length × Nat)) (st : CM) (pid : Nat) :
    (pushWait exited pick st pid).2.head? = some (.reg pid) ∧
    ∀ e ∈ (pushWait exited pick st pid).2.tail, ∀ q : Nat, e ≠ .reg q := by
  constructor
  · simp only [pushWait]
    rfl
  · intro e he q
    simp only [pushWait, List.tail_cons] at he
    rcases List.mem_append.mp he with h1 | h1
    · exact ite_twr_no_reg exited _ _ e h1 q
    · exact ite_waitRemove_no_reg pick _ _ e h1 q

/-- C9.  A full non-blocking reap pass removes exactly the children that had
already exited (their pids are the reaped trace) and keeps exactly the
still-running ones, independently — up to permutation — of the order in which
the exits are observed, and it leaves the configured capacity unchanged. -/
theorem tryWaitRemove_reaps_exactly_exited (exited : Nat → Bool) (st : CM) :
    ((tryWaitRemoveCM exited st).1.kids.Perm
      (st.kids.filter fun p => !exited p)) ∧
    ((reapedOf (tryWaitRemoveCM exited st).2).Perm
      (st.kids.filter fun p => exited p)) ∧
    (tryWaitRemoveCM exited st).1.maxKids = st.maxKids :=
  ⟨tryWaitRemoveCM_kids_perm exited st, tryWaitRemoveCM_reaped_perm exited st, rfl⟩

/-! ## The unix wait-any primitive: `os_wait::wait_on_children` (C4) -/

/-- How one call of the unix `wait_on_children` can end.  `panicFatal` is the
`panic!("waitpid returned unknown pid: ...")` — immediate abnormal program
termination; `abortFatal` the `abort()` on a non-positive, non-`-1` return;
`osError` the recoverable `Err(last_os_error())` the caller merely logs. -/
inductive WaitRes where
  | ok (status : Nat) (idx : Nat)
  | osError
  | abortFatal
  | panicFatal
deriving Repr, DecidableEq

/-- `os_wait::wait_on_children` on the process-group platform (unix), as a
function of the raw `waitpid(-pgid, &status, 0)` return value `ret` and the
raw wait status it stored.  `pids` are `p.child.id()` of the live set in
order.  Mirrors:

    let pid = match waitpid(-get_pgid(), &mut status, 0) {
        -1 => return Err(last_os_error()),
        pid if pid.is_positive() => pid,
        _ => abort(),
    };
    let index = processes.iter().position(|p| p.child.id() == pid_u32)
        .unwrap_or_else(|| panic!(...));
    Ok((ExitStatus::from_raw(status), index))
-/
def wait_on_children (pids : List Nat) (ret : Int) (status : Nat) : WaitRes :=
  if ret = -1 then .osError
  else if 0 < ret then
    match pids.findIdx? (fun p => p == ret.toNat) with
    | some idx => .ok status idx
    | none => .panicFatal
  else .abortFatal

theorem findIdx?_eq_none_of_not_mem (x : Nat) (l : List Nat) (h : x ∉ l) :
    l.findIdx? (fun p => p == x) = none := by
  rw [List.findIdx?_eq_none_iff]
  intro y hy
  simp only [beq_eq_false_iff_ne]
  intro hyx
  exact h (hyx ▸ hy)

theorem findIdx?_getElem_of_mem (x : Nat) (l : List Nat) (h : x ∈ l) :
    ∃ i, l.findIdx? (fun p => p == x) = some i ∧ l[i]? = some x := by
  cases hf : l.findIdx? (fun p => p == x) with
  | none =>
    rw [List.findIdx?_eq_none_iff] at hf
    have := hf x h
    simp at this
  | some i =>
    obtain ⟨hlt, hp, _⟩ := List.findIdx?_eq_some_iff_getElem.mp hf
    refine ⟨i, rfl, ?_⟩
    rw [List.getElem?_eq_getElem hlt]
    simp only [beq_iff_eq] at hp
    rw [hp]

/-- C4.  When the OS wait reports a positive pid, `wait_on_children` returns
the reported raw exit status together with the index of that pid in the live
set; a reported pid that is not in the live set makes it panic — immediate
abnormal termination, a different outcome from the recoverable logged
`osError`. -/
theorem wait_on_children_spec (pids : List Nat) (ret : Int) (status : Nat)
    (hpos : 0 < ret) :
    (ret.toNat ∉ pids → wait_on_children pids ret status = .panicFatal) ∧
    (ret.toNat ∈ pids →
      ∃ idx, wait_on_children pids ret status = .ok status idx ∧
        pids[idx]? = some ret.toNat) ∧
    wait_on_children pids ret status ≠ .osError := by
  have hne : ¬(ret = -1) := by omega
  refine ⟨?_, ?_, ?_⟩
  · intro hmem
    rw [wait_on_children, if_neg hne, if_pos hpos,
      findIdx?_eq_none_of_not_mem ret.toNat pids hmem]
  · intro hmem
    obtain ⟨i, hi1, hi2⟩ := findIdx?_getElem_of_mem ret.toNat pids hmem
    refine ⟨i, ?_, hi2⟩
    rw [wait_on_children, if_neg hne, if_pos hpos, hi1]
  · rw [wait_on_children, if_neg hne, if_pos hpos]
    cases pids.findIdx? (fun p => p == ret.toNat) with
    | none => simp
    | some i => simp

theorem wait_on_children_spec_witness :
    (0 : Int) < 5 ∧
    ((5 : Int).toNat ∉ ([3, 9] : List Nat) →
      wait_on_children [3, 9] 5 0 = .panicFatal) ∧
    ((5 : Int).toNat ∈ ([3, 9] : List Nat) →
      ∃ idx, wait_on_children [3, 9] 5 0 = .ok 0 idx ∧
        ([3, 9] : List Nat)[idx]? = some (5 : Int).toNat) ∧
    wait_on_children [3, 9] 5 0 ≠ .osError := by
  have h := wait_on_children_spec [3, 9] 5 0 (by omega)
  exact ⟨by omega, h.1, h.2.1, h.2.2⟩

/-! ## The stderr reporting policy: `log_output` / `log_child_stderr` (C6) -/

/-- One reported error-stream line for a reaped child that failed: the line
carries the process's working-directory path, its exit status and the
captured stderr text (the source formats these into one `writeln!`). -/
inductive ErrLine where
  | childFail (path : List String) (status : Nat) (captured : String)
deriving Repr, DecidableEq

/-- Substring test on chars, the semantics of Rust's `str::contains`. -/
def subAux (needle : List Char) : List Char → Bool
  | [] => needle.isEmpty
  | c :: t => needle.isPrefixOf (c :: t) || subAux needle t

def containsSub (hay needle : String) : Bool :=
  subAux needle.toList hay.toList

/-- `StdErrManager::log_child_stderr`: the captured stderr text of a failed
child is matched against the suppression list

    const IGNORE_LIST: &[&str] = &["No rule to make target"];

a match is ignored entirely, otherwise one line with path, status and the
captured text is written.  The pipe read is modelled as yielding the captured
text directly (the captured diagnostic is treated as text and the read as
succeeding). -/
def log_child_stderr (path : List String) (status : Nat) (captured : String) :
    List ErrLine :=
  if ["No rule to make target"].any (fun s => containsSub captured s) then []
  else [.childFail path status captured]

/-- `ChildProcess::log_output`: a successful exit status reports nothing;
a failure defers to `log_child_stderr`.  The raw wait status is a `Nat`;
`ExitStatus::success()` is `status == 0`. -/
def log_output (path : List String) (status : Nat) (captured : String) :
    List ErrLine :=
  if status = 0 then [] else log_child_stderr path status captured

/-- C6.  A successful exit produces no error-stream line; a failed exit whose
captured stderr contains the suppression substring produces no line; any
other failed exit produces exactly one line carrying the process's path, its
status and the captured stderr content. -/
theorem log_output_spec (path : List String) (status : Nat) (captured : String) :
    (status = 0 → log_output path status captured = []) ∧
    (status ≠ 0 → containsSub captured "No rule to make target" = true →
      log_output path status captured = []) ∧
    (status ≠ 0 → containsSub captured "No rule to make target" = false →
      log_output path status captured = [.childFail path status captured]) := by
  refine ⟨?_, ?_, ?_⟩
  · intro h
    simp [log_output, h]
  · intro h hc
    simp [log_output, log_child_stderr, h, hc]
  · intro h hc
    simp [log_output, log_child_stderr, h, hc]

/-! ## Argument parsing: the jobs limit (C10) -/

/-- `const MAX_KIDS: usize = 512 + 256;` -/
def MAX_KIDS : Nat := 512 + 256

/-- `usize::from_str` (64-bit): an optional leading `'+'`, then one or more
ascii digits, value below `2 ^ 64`; anything else is a parse error. -/
def parseUsize (s : String) : Option Nat :=
  let cs := s.toList
  let ds := match cs with
    | '+' :: rest => rest
    | _ => cs
  if ds.isEmpty then none
  else if ds.all (fun c => c.isDigit) then
    let n := ds.foldl (fun acc c => acc * 10 + (c.toNat - '0'.toNat)) 0
    if n < 2 ^ 64 then some n else none
  else none

/-- The jobs-limit computation at the top of `main`:

    let kids_limit = env::args()
        .position(|a| a == "-j" || a == "--jobs")
        .and_then(|pos| env::args().nth(pos + 1).map(|v| usize::from_str(&v).unwrap()))
        .unwrap_or(MAX_KIDS);

`args` includes the program name (index 0), exactly as `env::args` does.
`Except.error ()` is the `unwrap()` panic on a token that does not parse. -/
def kidsLimit (args : List String) : Except Unit Nat :=
  match args.findIdx? (fun a => a == "-j" || a == "--jobs") with
  | none => .ok MAX_KIDS
  | some pos =>
    match args[pos + 1]? with
    | none => .ok MAX_KIDS
    | some v =>
      match parseUsize v with
      | some n => .ok n
      | none => .error ()

/-! ## The file-system tree, the walker and `main` (C2, C5, C7, C8, C10)

The file system is modelled as a static snapshot: an entry is a file or a
directory with named children.  Paths are lists of components, the walk's
starting directory being the empty path.  All fallible OS interactions are
answered by oracles in `Env`; the diagnostic streams are treated as
infallible (every `writeln!` to the locked stdout/stderr succeeds), so the
`?` operators on log writes never fire.  Directory entries carry valid
unicode names (the source's `OsStr::to_str` conversions succeed). -/

inductive FSTree where
  | file (name : String)
  | dir (name : String) (children : List FSTree)

def FSTree.name : FSTree → String
  | .file n => n
  | .dir n _ => n

def FSTree.isDir : FSTree → Bool
  | .file _ => false
  | .dir _ _ => true

def FSTree.children : FSTree → List FSTree
  | .file _ => []
  | .dir _ cs => cs

/-- `should_ignore`: `IGNORE_LIST = ["node_modules"]`; `Path::ends_with` with
a single-component pattern holds exactly when the final component equals
it. -/
def should_ignore (p : List String) : Bool :=
  ["node_modules"].any fun ignore => p.getLast? == some ignore

/-- `is_hidden`: the final name component begins with `'.'` (a path without a
final component is not hidden). -/
def is_hidden (p : List String) : Bool :=
  match p.getLast? with
  | some n => n.startsWith "."
  | none => false

/-- The environment of one program run: every fallible OS interaction,
answered per path (or per live set for the blocking wait).  `exited` takes
the number of already-performed spawns as a crude clock, then the polled
pid. -/
structure Env where
  cwdOk : Bool
  readDirOk : List String → Bool
  entryOk : List String → Bool
  spawnOk : List String → Bool
  exited : Nat → Nat → Bool
  pick : (l : List Nat) → Option (Fin l.length × Nat)
  nmExists : List String → Bool
  nmMetaOk : List String → Bool
  nmIsDir : List String → Bool
  nmRemoveOk : List String → Bool

/-- The whole mutable state of `main`: the pool (`cm`), a pid counter, and
ghost logs of every spawned pid, every reaped pid, every path handed to
`handle_path` (the dispatcher), every directory popped and successfully read,
and every `node_modules` directory removed. -/
structure MState where
  cm : CM
  nextPid : Nat
  spawned : List Nat
  reaped : List Nat
  dispatched : List (List String)
  visited : List (List String × List FSTree)
  removedNM : List (List String)

/-- Spawn a child (fresh pid) and hand it to `push_wait`. -/
def submitChild (env : Env) (st : MState) : MState :=
  let pid := st.nextPid
  let r := pushWait (env.exited st.spawned.length) env.pick st.cm pid
  { st with
    cm := r.1
    nextPid := pid + 1
    spawned := st.spawned ++ [pid]
    reaped := st.reaped ++ reapedOf r.2 }

/-- `ChildrenManager::new_child_node_modules`:

    if !path.exists() || !fs::symlink_metadata(path)?.is_dir() { return Ok(()); }
    ...
    fs::remove_dir_all(path)

The Bool result is whether the call returned `Ok` (an `Err` is caught by the
caller's `try_continue!`).  `removedNM` records a removal that was performed
and succeeded. -/
def new_child_node_modules (env : Env) (st : MState) (path : List String) :
    MState × Bool :=
  if !(env.nmExists path) then (st, true)
  else if !(env.nmMetaOk path) then (st, false)
  else if !(env.nmIsDir path) then (st, true)
  else if env.nmRemoveOk path then
    ({ st with removedNM := st.removedNM ++ [path] }, true)
  else (st, false)

/-- `ChildrenManager::handle_path`: dispatch on the final name component.
The five spawn markers launch their respective clean command (the spawned
program and argument list carry no verified behaviour, so only the spawn is
modelled); `package.json` triggers the synchronous sibling-directory removal
(`path.with_file_name("node_modules")` is `dropLast ++ ["node_modules"]`);
anything else does nothing.  The Bool is whether `handle_path` returned
`Ok`. -/
def handle_path (env : Env) (st : MState) (path : List String) : MState × Bool :=
  match path.getLast?.getD "" with
  | "Cargo.toml" | "Makefile" | "build.ninja" | "gradlew" | ".git" =>
    if env.spawnOk path then (submitChild env st, true) else (st, false)
  | "package.json" =>
    new_child_node_modules env st (path.dropLast ++ ["node_modules"])
  | _ => (st, true)

/-- The body of the `for entry in read_dir(dir)` loop over one directory's
entries: a failed entry/metadata read skips the entry (`try_continue!`);
otherwise the entry is handed to the dispatcher, and it is pushed onto the
traversal stack when it is a directory, `handle_path` returned `Ok`, and
neither the ignore rule nor the hidden rule matches.  The stack is kept with
its top in front (the source's `Vec` pushes to and pops from the back). -/
def processEntries (env : Env) :
    MState → List String → List FSTree →
    List (List String × List FSTree) → MState × List (List String × List FSTree)
  | st, _, [], stack => (st, stack)
  | st, p, e :: es, stack =>
    let q := p ++ [e.name]
    if env.entryOk q then
      let st1 := { st with dispatched := st.dispatched ++ [q] }
      let r := handle_path env st1 q
      let stack' :=
        if e.isDir && r.2 && !(should_ignore q) && !(is_hidden q) then
          (q, e.children) :: stack
        else stack
      processEntries env r.1 p es stack'
    else
      processEntries env st p es stack

mutual

def FSTree.msize : FSTree → Nat
  | .file _ => 1
  | .dir _ cs => 1 + msizeList cs

def msizeList : List FSTree → Nat
  | [] => 0
  | t :: ts => FSTree.msize t + msizeList ts

end

def stackMeasure (stack : List (List String × List FSTree)) : Nat :=
  (stack.map fun pe => 1 + msizeList pe.2).sum

@[simp] theorem stackMeasure_nil : stackMeasure [] = 0 := rfl

@[simp] theorem stackMeasure_cons (p : List String) (es : List FSTree)
    (stack : List (List String × List FSTree)) :
    stackMeasure ((p, es) :: stack) = 1 + msizeList es + stackMeasure stack := by
  simp [stackMeasure]

theorem msize_children (e : FSTree) (h : e.isDir = true) :
    1 + msizeList e.children = e.msize := by
  cases e with
  | file n => simp [FSTree.isDir] at h
  | dir n cs => simp [FSTree.children, FSTree.msize]

theorem msize_pos (e : FSTree) : 1 ≤ e.msize := by
  cases e with
  | file n => simp [FSTree.msize]
  | dir n cs => simp [FSTree.msize]

theorem processEntries_measure (env : Env) :
    ∀ (es : List FSTree) (st : MState) (p : List String)
      (stack : List (List String × List FSTree)),
      stackMeasure (processEntries env st p es stack).2 ≤
        stackMeasure stack + msizeList es := by
  intro es
  induction es with
  | nil =>
    intro st p stack
    simp [processEntries, msizeList]
  | cons e es ih =>
    intro st p stack
    simp only [processEntries]
    by_cases he : env.entryOk (p ++ [e.name]) = true
    · rw [if_pos he]
      split
      next hp =>
        have hdir : e.isDir = true := by
          simp only [Bool.and_eq_true] at hp
          exact hp.1.1.1
        have hstep := ih (handle_path env
          { st with dispatched := st.dispatched ++ [p ++ [e.name]] }
          (p ++ [e.name])).1 p ((p ++ [e.name], e.children) :: stack)
        have hsz := msize_children e hdir
        rw [stackMeasure_cons] at hstep
        simp only [msizeList]
        omega
      next hp =>
        have hstep := ih (handle_path env
          { st with dispatched := st.dispatched ++ [p ++ [e.name]] }
          (p ++ [e.name])).1 p stack
        have hpos := msize_pos e
        simp only [msizeList]
        omega
    · rw [if_neg he]
      have hstep := ih st p stack
      have hpos := msize_pos e
      simp only [msizeList]
      omega

/-- The `while let Some(dir) = dirs.pop()` loop of `main`: pop a directory,
read it (a failed `read_dir` skips it, logged), dispatch its entries and push
its traversable subdirectories. -/
def walkLoop (env : Env) (st : MState)
    (stack : List (List String × List FSTree)) : MState :=
  match stack with
  | [] => st
  | (p, entries) :: rest =>
    if env.readDirOk p then
      let st1 := { st with visited := st.visited ++ [(p, entries)] }
      let r := processEntries env st1 p entries rest
      walkLoop env r.1 r.2
    else
      walkLoop env st rest
termination_by stackMeasure stack
decreasing_by
  · have := processEntries_measure env entries
      { st with visited := st.visited ++ [(p, entries)] } p rest
    rw [stackMeasure_cons]
    omega
  · rw [stackMeasure_cons]
    omega

/-- `impl Drop for ChildrenManager`: drain the live set, waiting on (reaping)
every remaining child.  The drop-time waits are modelled as succeeding (a
failed wait would `panic!` via `.expect(..)`). -/
def dropManager (st : MState) : MState :=
  { st with
    cm := { st.cm with kids := [] }
    reaped := st.reaped ++ st.cm.kids }

inductive Outcome where
  | ok
  | setupErr
  | panicked
deriving Repr, DecidableEq

def initState (cap : Nat) : MState :=
  { cm := { kids := [], maxKids := cap }, nextPid := 0, spawned := [],
    reaped := [], dispatched := [], visited := [], removedNM := [] }

/-- `fn main()`: parse the jobs limit (a malformed value panics before
anything else happens), create the manager, read the starting directory
(failure propagates as the only `Err` exit — the manager, still empty, is
dropped), run the traversal loop, then drop the manager, which drains the
pool.  `Outcome.ok` is exit code 0. -/
def runMain (env : Env) (args : List String) (roots : List FSTree) :
    Outcome × MState :=
  match kidsLimit args with
  | .error _ => (.panicked, initState 0)
  | .ok cap =>
    if env.cwdOk then
      (.ok, dropManager (walkLoop env (initState cap) [([], roots)]))
    else
      (.setupErr, dropManager (initState cap))

/-! ## Frame lemmas for the walker's operations -/

@[simp] theorem submitChild_dispatched (env : Env) (st : MState) :
    (submitChild env st).dispatched = st.dispatched := rfl

@[simp] theorem submitChild_visited (env : Env) (st : MState) :
    (submitChild env st).visited = st.visited := rfl

@[simp] theorem submitChild_removedNM (env : Env) (st : MState) :
    (submitChild env st).removedNM = st.removedNM := rfl

@[simp] theorem submitChild_maxKids (env : Env) (st : MState) :
    (submitChild env st).cm.maxKids = st.cm.maxKids := by
  simp only [submitChild]
  exact pushWait_maxKids _ _ _ _

theorem nm_frame (env : Env) (st : MState) (path : List String) :
    (new_child_node_modules env st path).1.cm = st.cm ∧
    (new_child_node_modules env st path).1.nextPid = st.nextPid ∧
    (new_child_node_modules env st path).1.spawned = st.spawned ∧
    (new_child_node_modules env st path).1.reaped = st.reaped ∧
    (new_child_node_modules env st path).1.dispatched = st.dispatched ∧
    (new_child_node_modules env st path).1.visited = st.visited := by
  simp only [new_child_node_modules]
  split_ifs <;> exact ⟨rfl, rfl, rfl, rfl, rfl, rfl⟩

theorem handle_path_frame (env : Env) (st : MState) (path : List String) :
    (handle_path env st path).1.dispatched = st.dispatched ∧
    (handle_path env st path).1.visited = st.visited ∧
    (handle_path env st path).1.cm.maxKids = st.cm.maxKids := by
  rw [handle_path]
  split
  all_goals
    first
    | (split_ifs <;> exact ⟨rfl, rfl, by simp⟩)
    | exact ⟨(nm_frame env st (path.dropLast ++ ["node_modules"])).2.2.2.2.1,
        (nm_frame env st (path.dropLast ++ ["node_modules"])).2.2.2.2.2,
        by rw [(nm_frame env st (path.dropLast ++ ["node_modules"])).1]⟩
    | exact ⟨rfl, rfl, rfl⟩

/-! ## Conservation of children: spawned = reaped + live (C2) -/

/-- The lifecycle invariant: every spawned child is either still live or
already reaped (and nothing else ever enters either collection). -/
def Conserved (st : MState) : Prop :=
  (st.cm.kids ++ st.reaped).Perm st.spawned

theorem conserve_step (K K' R N S : List Nat) (pid : Nat)
    (hKN : (K' ++ N).Perm (K ++ [pid])) (hC : (K ++ R).Perm S) :
    (K' ++ (R ++ N)).Perm (S ++ [pid]) := by
  have h1 : (K' ++ (R ++ N)).Perm ((K' ++ N) ++ R) := by
    rw [List.append_assoc]
    exact List.Perm.append_left K' List.perm_append_comm
  have h2 : ((K' ++ N) ++ R).Perm ((K ++ [pid]) ++ R) := hKN.append_right R
  have h3 : ((K ++ [pid]) ++ R).Perm ((K ++ R) ++ [pid]) := by
    rw [List.append_assoc, List.append_assoc]
    exact List.Perm.append_left K List.perm_append_comm
  exact ((h1.trans h2).trans h3).trans (hC.append_right [pid])

theorem submitChild_conserved (env : Env) (st : MState) (h : Conserved st) :
    Conserved (submitChild env st) := by
  simp only [Conserved, submitChild]
  exact conserve_step st.cm.kids _ st.reaped _ st.spawned st.nextPid
    (pushWait_conserves _ _ st.cm st.nextPid) h

theorem nm_conserved (env : Env) (st : MState) (path : List String)
    (h : Conserved st) : Conserved (new_child_node_modules env st path).1 := by
  obtain ⟨h1, _, h3, h4, _, _⟩ := nm_frame env st path
  simp only [Conserved, h1, h3, h4]
  exact h

theorem handle_path_conserved (env : Env) (st : MState) (path : List String)
    (h : Conserved st) : Conserved (handle_path env st path).1 := by
  rw [handle_path]
  split
  all_goals
    first
    | (split_ifs <;> first | exact submitChild_conserved env st h | exact h)
    | exact nm_conserved env st _ h
    | exact h

theorem processEntries_conserved (env : Env) :
    ∀ (es : List FSTree) (st : MState) (p : List String)
      (stack : List (List String × List FSTree)),
      Conserved st → Conserved (processEntries env st p es stack).1 := by
  intro es
  induction es with
  | nil =>
    intro st p stack h
    simpa [processEntries] using h
  | cons e es ih =>
    intro st p stack h
    simp only [processEntries]
    by_cases he : env.entryOk (p ++ [e.name]) = true
    · rw [if_pos he]
      have h1 : Conserved { st with dispatched := st.dispatched ++ [p ++ [e.name]] } := h
      exact ih _ p _ (handle_path_conserved env _ _ h1)
    · rw [if_neg he]
      exact ih st p stack h

theorem walkLoop_conserved (env : Env) :
    ∀ (st : MState) (stack : List (List String × List FSTree)),
      Conserved st → Conserved (walkLoop env st stack) := by
  intro st stack
  induction st, stack using walkLoop.induct env with
  | case1 st => intro h; simpa [walkLoop] using h
  | case2 st p entries rest hread st1 r ih =>
    intro h
    rw [walkLoop, if_pos hread]
    exact ih (processEntries_conserved env entries st1 p rest h)
  | case3 st p entries rest hread ih =>
    intro h
    rw [walkLoop, if_neg hread]
    exact ih h

theorem dropManager_spec (st : MState) (h : Conserved st) :
    (dropManager st).cm.kids = [] ∧
    (dropManager st).reaped.Perm (dropManager st).spawned := by
  refine ⟨rfl, ?_⟩
  simp only [dropManager]
  exact List.perm_append_comm.trans h

/-- C2.  On every exit path of `main` — normal completion, the early `Err`
return when the starting directory cannot be read, or the panic exit on a
malformed jobs argument — the final live set is empty and the reaped pids are
exactly (a permutation of) the spawned pids: every child that was ever
spawned has been waited on, none abandoned.  The drop of `ChildrenManager`
runs on the error path too (Rust drops locals on early `return`/`?`). -/
theorem run_reaps_all (env : Env) (args : List String) (roots : List FSTree) :
    (runMain env args roots).2.cm.kids = [] ∧
    (runMain env args roots).2.reaped.Perm (runMain env args roots).2.spawned := by
  cases hk : kidsLimit args with
  | error u =>
    simp only [runMain, hk]
    exact ⟨rfl, List.Perm.refl []⟩
  | ok cap =>
    have hinit : Conserved (initState cap) := by
      simp [Conserved, initState]
    by_cases hc : env.cwdOk = true
    · simp only [runMain, hk, if_pos hc]
      exact dropManager_spec _ (walkLoop_conserved env _ _ hinit)
    · simp only [runMain, hk, if_neg hc]
      exact dropManager_spec _ hinit

/-! ## The traversal rules prune only descent (C7) -/

/-- A name a directory may have and still be descended into: neither the
ignore rule (`node_modules`) nor the hidden rule (leading `'.'`) matches. -/
def okName (n : String) : Bool := !(n == "node_modules") && !(n.startsWith ".")

/-- Every component of the path (below the walk's root) survives both
pruning rules. -/
def pathClean (p : List String) : Prop := ∀ n ∈ p, okName n = true

theorem should_ignore_concat (p : List String) (n : String) :
    should_ignore (p ++ [n]) = (n == "node_modules") := by
  simp [should_ignore, List.getLast?_concat]

theorem is_hidden_concat (p : List String) (n : String) :
    is_hidden (p ++ [n]) = n.startsWith "." := by
  simp [is_hidden, List.getLast?_concat]

theorem pathClean_concat (p : List String) (n : String) (hp : pathClean p)
    (hn : okName n = true) : pathClean (p ++ [n]) := by
  intro m hm
  rcases List.mem_append.mp hm with h | h
  · exact hp m h
  · rw [List.mem_singleton.mp h]
    exact hn

theorem processEntries_visited (env : Env) :
    ∀ (es : List FSTree) (st : MState) (p : List String)
      (stack : List (List String × List FSTree)),
      (processEntries env st p es stack).1.visited = st.visited := by
  intro es
  induction es with
  | nil =>
    intro st p stack
    simp [processEntries]
  | cons e es ih =>
    intro st p stack
    simp only [processEntries]
    by_cases he : env.entryOk (p ++ [e.name]) = true
    · rw [if_pos he]
      rw [ih]
      exact (handle_path_frame env _ _).2.1
    · rw [if_neg he]
      exact ih st p stack

theorem processEntries_dispatched_mono (env : Env) :
    ∀ (es : List FSTree) (st : MState) (p : List String)
      (stack : List (List String × List FSTree)) (q : List String),
      q ∈ st.dispatched → q ∈ (processEntries env st p es stack).1.dispatched := by
  intro es
  induction es with
  | nil =>
    intro st p stack q hq
    simpa [processEntries] using hq
  | cons e es ih =>
    intro st p stack q hq
    simp only [processEntries]
    by_cases he : env.entryOk (p ++ [e.name]) = true
    · rw [if_pos he]
      apply ih
      rw [(handle_path_frame env _ _).1]
      exact List.mem_append_left _ hq
    · rw [if_neg he]
      exact ih st p stack q hq

theorem processEntries_dispatches (env : Env)
    (hentry : ∀ q, env.entryOk q = true) :
    ∀ (es : List FSTree) (st : MState) (p : List String)
      (stack : List (List String × List FSTree)) (e : FSTree), e ∈ es →
      p ++ [e.name] ∈ (processEntries env st p es stack).1.dispatched := by
  intro es
  induction es with
  | nil =>
    intro st p stack e he
    simp at he
  | cons a es ih =>
    intro st p stack e he
    simp only [processEntries]
    rw [if_pos (hentry (p ++ [a.name]))]
    rcases List.mem_cons.mp he with h | h
    · subst h
      apply processEntries_dispatched_mono
      rw [(handle_path_frame env _ _).1]
      exact List.mem_append_right _ (List.mem_singleton_self _)
    · exact ih _ p _ e h

/-- The walker's stack discipline: starting from a stack whose paths are
clean and a state whose visited paths are clean and whose dispatched paths
all sit directly inside a clean directory, the same holds at the end of the
walk.  This is C7's parts (i) and (ii): a directory matching the ignore or
hidden rule is never pushed, so everything ever visited has a fully clean
path, and every dispatched path is a direct entry of such a directory. -/
theorem processEntries_clean (env : Env) :
    ∀ (es : List FSTree) (st : MState) (p : List String)
      (stack : List (List String × List FSTree)),
      pathClean p →
      (∀ pe ∈ stack, pathClean pe.1) →
      (∀ q ∈ st.dispatched, ∃ r n, q = r ++ [n] ∧ pathClean r) →
      ((∀ pe ∈ (processEntries env st p es stack).2, pathClean pe.1) ∧
       (∀ q ∈ (processEntries env st p es stack).1.dispatched,
         ∃ r n, q = r ++ [n] ∧ pathClean r)) := by
  intro es
  induction es with
  | nil =>
    intro st p stack hp hstack hdisp
    simp only [processEntries]
    exact ⟨hstack, hdisp⟩
  | cons e es ih =>
    intro st p stack hp hstack hdisp
    simp only [processEntries]
    by_cases he : env.entryOk (p ++ [e.name]) = true
    · rw [if_pos he]
      have hdisp1 : ∀ q ∈ (handle_path env
          { st with dispatched := st.dispatched ++ [p ++ [e.name]] }
          (p ++ [e.name])).1.dispatched, ∃ r n, q = r ++ [n] ∧ pathClean r := by
        rw [(handle_path_frame env _ _).1]
        intro q hq
        rcases List.mem_append.mp hq with h | h
        · exact hdisp q h
        · exact ⟨p, e.name, List.mem_singleton.mp h, hp⟩
      split
      next hpush =>
        have hclean : pathClean (p ++ [e.name]) := by
          simp only [Bool.and_eq_true] at hpush
          have hig := hpush.1.2
          have hhid := hpush.2
          rw [Bool.not_eq_true', should_ignore_concat] at hig
          rw [Bool.not_eq_true', is_hidden_concat] at hhid
          exact pathClean_concat p e.name hp (by simp [okName, hig, hhid])
        refine ih _ p _ hp ?_ hdisp1
        intro pe hpe
        rcases List.mem_cons.mp hpe with h | h
        · rw [h]
          exact hclean
        · exact hstack pe h
      next hpush =>
        exact ih _ p _ hp hstack hdisp1
    · rw [if_neg he]
      exact ih st p stack hp hstack hdisp

theorem walkLoop_visited_mono (env : Env) :
    ∀ (st : MState) (stack : List (List String × List FSTree)) (pv : List String × List FSTree),
      pv ∈ st.visited → pv ∈ (walkLoop env st stack).visited := by
  intro st stack
  induction st, stack using walkLoop.induct env with
  | case1 st => intro pv h; simpa [walkLoop] using h
  | case2 st p entries rest hread st1 r ih =>
    intro pv h
    rw [walkLoop, if_pos hread]
    apply ih
    rw [processEntries_visited]
    exact List.mem_append_left _ h
  | case3 st p entries rest hread ih =>
    intro pv h
    rw [walkLoop, if_neg hread]
    exact ih pv h

theorem walkLoop_dispatched_mono (env : Env) :
    ∀ (st : MState) (stack : List (List String × List FSTree)) (q : List String),
      q ∈ st.dispatched → q ∈ (walkLoop env st stack).dispatched := by
  intro st stack
  induction st, stack using walkLoop.induct env with
  | case1 st => intro q h; simpa [walkLoop] using h
  | case2 st p entries rest hread st1 r ih =>
    intro q h
    rw [walkLoop, if_pos hread]
    exact ih q (processEntries_dispatched_mono env entries st1 p rest q h)
  | case3 st p entries rest hread ih =>
    intro q h
    rw [walkLoop, if_neg hread]
    exact ih q h

theorem walkLoop_clean (env : Env) :
    ∀ (st : MState) (stack : List (List String × List FSTree)),
      (∀ pe ∈ stack, pathClean pe.1) →
      (∀ pv ∈ st.visited, pathClean pv.1) →
      (∀ q ∈ st.dispatched, ∃ r n, q = r ++ [n] ∧ pathClean r) →
      ((∀ pv ∈ (walkLoop env st stack).visited, pathClean pv.1) ∧
       (∀ q ∈ (walkLoop env st stack).dispatched,
         ∃ r n, q = r ++ [n] ∧ pathClean r)) := by
  intro st stack
  induction st, stack using walkLoop.induct env with
  | case1 st =>
    intro _ hvis hdisp
    rw [walkLoop]
    exact ⟨hvis, hdisp⟩
  | case2 st p entries rest hread st1 r ih =>
    intro hstack hvis hdisp
    rw [walkLoop, if_pos hread]
    have hpclean : pathClean p := hstack (p, entries) (by simp)
    have hrest : ∀ pe ∈ rest, pathClean pe.1 := by
      intro pe hpe
      exact hstack pe (by simp [hpe])
    have hpe := processEntries_clean env entries st1 p rest hpclean hrest hdisp
    refine ih hpe.1 ?_ hpe.2
    rw [processEntries_visited]
    intro pv hpv
    rcases List.mem_append.mp hpv with h | h
    · exact hvis pv h
    · rw [List.mem_singleton.mp h]
      exact hpclean
  | case3 st p entries rest hread ih =>
    intro hstack hvis hdisp
    rw [walkLoop, if_neg hread]
    refine ih ?_ hvis hdisp
    intro pe hpe
    exact hstack pe (by simp [hpe])

theorem walkLoop_dispatches (env : Env) (hentry : ∀ q, env.entryOk q = true) :
    ∀ (st : MState) (stack : List (List String × List FSTree)),
      (∀ pv ∈ st.visited, ∀ e ∈ pv.2, pv.1 ++ [e.name] ∈ st.dispatched) →
      ∀ pv ∈ (walkLoop env st stack).visited, ∀ e ∈ pv.2,
        pv.1 ++ [e.name] ∈ (walkLoop env st stack).dispatched := by
  intro st stack
  induction st, stack using walkLoop.induct env with
  | case1 st =>
    intro h pv hpv e he
    rw [walkLoop] at *
    exact h pv hpv e he
  | case2 st p entries rest hread st1 r ih =>
    intro h pv hpv e he
    rw [walkLoop, if_pos hread] at *
    refine ih ?_ pv hpv e he
    intro pv' hpv' e' he'
    rw [processEntries_visited] at hpv'
    rcases List.mem_append.mp hpv' with h1 | h1
    · exact processEntries_dispatched_mono env entries st1 p rest _ (h pv' h1 e' he')
    · rw [List.mem_singleton.mp h1] at he' ⊢
      exact processEntries_dispatches env hentry entries st1 p rest e' he'
  | case3 st p entries rest hread ih =>
    intro h pv hpv e he
    rw [walkLoop, if_neg hread] at *
    exact ih h pv hpv e he

/-! ## The remaining claims about `main`: C5, C7, C8, C10 -/

@[simp] theorem dropManager_visited (st : MState) :
    (dropManager st).visited = st.visited := rfl

@[simp] theorem dropManager_dispatched (st : MState) :
    (dropManager st).dispatched = st.dispatched := rfl

@[simp] theorem dropManager_removedNM (st : MState) :
    (dropManager st).removedNM = st.removedNM := rfl

@[simp] theorem dropManager_maxKids (st : MState) :
    (dropManager st).cm.maxKids = st.cm.maxKids := rfl

theorem processEntries_maxKids (env : Env) :
    ∀ (es : List FSTree) (st : MState) (p : List String)
      (stack : List (List String × List FSTree)),
      (processEntries env st p es stack).1.cm.maxKids = st.cm.maxKids := by
  intro es
  induction es with
  | nil =>
    intro st p stack
    simp [processEntries]
  | cons e es ih =>
    intro st p stack
    simp only [processEntries]
    by_cases he : env.entryOk (p ++ [e.name]) = true
    · rw [if_pos he]
      rw [ih]
      exact (handle_path_frame env _ _).2.2
    · rw [if_neg he]
      exact ih st p stack

theorem walkLoop_maxKids (env : Env) :
    ∀ (st : MState) (stack : List (List String × List FSTree)),
      (walkLoop env st stack).cm.maxKids = st.cm.maxKids := by
  intro st stack
  induction st, stack using walkLoop.induct env with
  | case1 st => rw [walkLoop]
  | case2 st p entries rest hread st1 r ih =>
    rw [walkLoop, if_pos hread]
    rw [ih, processEntries_maxKids]
  | case3 st p entries rest hread ih =>
    rw [walkLoop, if_neg hread]
    exact ih

/-- A concrete, fault-free environment used for witnesses and
counterexamples: every OS interaction succeeds, no child has exited at poll
time, the blocking wait reports the first live child, and no `node_modules`
sibling exists. -/
def env0 : Env where
  cwdOk := true
  readDirOk := fun _ => true
  entryOk := fun _ => true
  spawnOk := fun _ => true
  exited := fun _ _ => false
  pick := pickFirst
  nmExists := fun _ => false
  nmMetaOk := fun _ => true
  nmIsDir := fun _ => false
  nmRemoveOk := fun _ => true

/-- C7.  The ignore rule and the hidden rule suppress only descent: every
directory the walk ever visits has a path all of whose components (below the
root) survive both rules — a matching directory is never pushed onto the
frontier; every dispatched path sits directly inside such a directory, so no
marker strictly beneath a matching directory ever triggers an action; and
every entry of a visited directory — whatever its name, matching or not — is
passed to the dispatcher (given that per-entry metadata reads succeed). -/
theorem traversal_prunes_only_descent (env : Env) (args : List String)
    (roots : List FSTree) (hentry : ∀ q, env.entryOk q = true) :
    (∀ pv ∈ (runMain env args roots).2.visited, pathClean pv.1) ∧
    (∀ q ∈ (runMain env args roots).2.dispatched, ∀ n ∈ q.dropLast,
      okName n = true) ∧
    (∀ pv ∈ (runMain env args roots).2.visited, ∀ e ∈ pv.2,
      pv.1 ++ [e.name] ∈ (runMain env args roots).2.dispatched) := by
  cases hk : kidsLimit args with
  | error u =>
    simp only [runMain, hk]
    refine ⟨?_, ?_, ?_⟩ <;> intro x hx <;> simp [initState] at hx
  | ok cap =>
    by_cases hc : env.cwdOk = true
    · simp only [runMain, hk, if_pos hc]
      have hst : ∀ pe ∈ [(([] : List String), roots)], pathClean pe.1 := by
        intro pe hpe
        rw [List.mem_singleton.mp hpe]
        intro n hn
        simp at hn
      have hclean := walkLoop_clean env (initState cap) [([], roots)] hst
        (by intro pv h; simp [initState] at h)
        (by intro q h; simp [initState] at h)
      have hdisp := walkLoop_dispatches env hentry (initState cap) [([], roots)]
        (by intro pv h; simp [initState] at h)
      refine ⟨?_, ?_, ?_⟩
      · intro pv hpv
        exact hclean.1 pv hpv
      · intro q hq
        obtain ⟨r, n, hqe, hr⟩ := hclean.2 q hq
        subst hqe
        rw [List.dropLast_concat]
        exact hr
      · intro pv hpv e he
        exact hdisp pv hpv e he
    · simp only [runMain, hk, if_neg hc]
      refine ⟨?_, ?_, ?_⟩ <;> intro x hx <;> simp [dropManager, initState] at hx

theorem traversal_prunes_only_descent_witness :
    (∀ pv ∈ (runMain env0 [] []).2.visited, pathClean pv.1) ∧
    (∀ q ∈ (runMain env0 [] []).2.dispatched, ∀ n ∈ q.dropLast,
      okName n = true) ∧
    (∀ pv ∈ (runMain env0 [] []).2.visited, ∀ e ∈ pv.2,
      pv.1 ++ [e.name] ∈ (runMain env0 [] []).2.dispatched) :=
  traversal_prunes_only_descent env0 [] [] (fun _ => rfl)

/-- The outcome of a run is decided entirely by the jobs-argument parse and
the starting-directory read: per-entry, spawn and child failures (all the
other oracles of `env`) never change it. -/
theorem runMain_outcome (env : Env) (args : List String) (roots : List FSTree) :
    (runMain env args roots).1 =
      match kidsLimit args with
      | .error _ => Outcome.panicked
      | .ok _ => if env.cwdOk then Outcome.ok else Outcome.setupErr := by
  cases hk : kidsLimit args with
  | error u => simp [runMain, hk]
  | ok cap =>
    by_cases hc : env.cwdOk = true
    · simp [runMain, hk, hc]
    · simp [runMain, hk, hc]

/-- C8 counterexample to the claim as stated: with the argument list
`["code-clean", "-j", "x"]` the program terminates abnormally (the `unwrap()`
on the jobs parse panics — a non-zero exit), although reading the initial
directory succeeds, so a non-zero exit is possible without any setup
failure. -/
theorem exit_nonzero_without_setup_failure :
    (runMain env0 ["code-clean", "-j", "x"] []).1 = Outcome.panicked ∧
    env0.cwdOk = true := by
  constructor
  · rfl
  · rfl

/-- C8 (amended).  The program's exit is zero unless either the initial
directory read fails (the only `Err` propagated out of `main`) or the jobs
argument is present and malformed (which panics); per-entry traversal
errors, spawn errors and child-process failures are logged through the
error sink and leave the exit code zero — the outcome does not depend on
the `readDirOk`, `entryOk`, `spawnOk`, poll, wait or removal oracles at
all. -/
theorem exit_code_spec (env : Env) (args : List String) (roots : List FSTree) :
    ((runMain env args roots).1 = Outcome.ok ↔
      ((∃ n, kidsLimit args = .ok n) ∧ env.cwdOk = true)) ∧
    ((runMain env args roots).1 = Outcome.setupErr ↔
      ((∃ n, kidsLimit args = .ok n) ∧ env.cwdOk = false)) ∧
    ((runMain env args roots).1 = Outcome.panicked ↔
      kidsLimit args = .error ()) := by
  rw [runMain_outcome]
  cases hk : kidsLimit args with
  | error u =>
    cases u
    refine ⟨?_, ?_, ?_⟩ <;> simp
  | ok cap =>
    by_cases hc : env.cwdOk = true
    · rw [if_pos hc]
      refine ⟨?_, ?_, ?_⟩ <;> simp [hc]
    · rw [if_neg hc]
      have hcf : env.cwdOk = false := by
        cases h : env.cwdOk
        · rfl
        · exact absurd h hc
      refine ⟨?_, ?_, ?_⟩ <;> simp [hcf]

theorem runMain_maxKids (env : Env) (args : List String) (roots : List FSTree)
    (n : Nat) (h : kidsLimit args = .ok n) :
    (runMain env args roots).2.cm.maxKids = n := by
  by_cases hc : env.cwdOk = true
  · simp only [runMain, h, if_pos hc]
    have h1 : (dropManager (walkLoop env (initState n) [([], roots)])).cm.maxKids
        = (walkLoop env (initState n) [([], roots)]).cm.maxKids := rfl
    rw [h1, walkLoop_maxKids]
    rfl
  · simp only [runMain, h, if_neg hc]
    rfl

/-- C10.  A token following the first `-j`/`--jobs` flag that parses as an
unsigned integer becomes the pool's configured capacity; without the flag
(or with the flag as last argument) the default 768 is used; a following
token that does not parse makes the program panic instead of reporting an
error through the normal error paths. -/
theorem jobs_argument_spec (env : Env) (args : List String) (roots : List FSTree) :
    (∀ pos v, args.findIdx? (fun a => a == "-j" || a == "--jobs") = some pos →
      args[pos + 1]? = some v →
      ((∀ n, parseUsize v = some n →
         ((runMain env args roots).2.cm.maxKids = n ∧
          (runMain env args roots).1 ≠ Outcome.panicked)) ∧
       (parseUsize v = none → (runMain env args roots).1 = Outcome.panicked))) ∧
    (∀ pos, args.findIdx? (fun a => a == "-j" || a == "--jobs") = some pos →
      args[pos + 1]? = none →
      ((runMain env args roots).2.cm.maxKids = MAX_KIDS ∧
       (runMain env args roots).1 ≠ Outcome.panicked)) ∧
    (args.findIdx? (fun a => a == "-j" || a == "--jobs") = none →
      ((runMain env args roots).2.cm.maxKids = MAX_KIDS ∧
       (runMain env args roots).1 ≠ Outcome.panicked)) := by
  refine ⟨?_, ?_, ?_⟩
  · intro pos v h1 h2
    constructor
    · intro n hn
      have hkl : kidsLimit args = .ok n := by
        simp [kidsLimit, h1, h2, hn]
      refine ⟨runMain_maxKids env args roots n hkl, ?_⟩
      rw [runMain_outcome, hkl]
      by_cases hc : env.cwdOk = true
      · simp [hc]
      · simp [hc]
    · intro hn
      have hkl : kidsLimit args = .error () := by
        simp [kidsLimit, h1, h2, hn]
      rw [runMain_outcome, hkl]
  · intro pos h1 h2
    have hkl : kidsLimit args = .ok MAX_KIDS := by
      simp [kidsLimit, h1, h2]
    refine ⟨runMain_maxKids env args roots MAX_KIDS hkl, ?_⟩
    rw [runMain_outcome, hkl]
    by_cases hc : env.cwdOk = true
    · simp [hc]
    · simp [hc]
  · intro h1
    have hkl : kidsLimit args = .ok MAX_KIDS := by
      simp [kidsLimit, h1]
    refine ⟨runMain_maxKids env args roots MAX_KIDS hkl, ?_⟩
    rw [runMain_outcome, hkl]
    by_cases hc : env.cwdOk = true
    · simp [hc]
    · simp [hc]

/-- The match arm of `handle_path` for `package.json`: the dispatcher calls
the synchronous removal on the sibling path `with_file_name("node_modules")`
and spawns nothing. -/
theorem handle_path_package_json (env : Env) (st : MState) (dirPath : List String) :
    handle_path env st (dirPath ++ ["package.json"]) =
      new_child_node_modules env st (dirPath ++ ["node_modules"]) := by
  have hg : (dirPath ++ ["package.json"]).getLast?.getD "" = "package.json" := by
    rw [List.getLast?_concat]
    rfl
  simp only [handle_path]
  rw [hg, List.dropLast_concat]
  rfl

/-- C5.  When a `package.json` is dispatched (with the metadata check and the
removal treated as succeeding when reached): the sibling `node_modules` is
removed exactly when it exists and the link-not-following check shows an
actual directory — in particular a symbolic link under that name
(`nmIsDir = false`) is never removed; the dispatcher call still returns `Ok`
(the run succeeds); and the removal is synchronous, consuming no pool slot:
the live set, the pid counter and the spawn log are untouched. -/
theorem package_json_removal (env : Env) (st : MState) (dirPath : List String)
    (hmeta : ∀ q, env.nmMetaOk q = true) (hrem : ∀ q, env.nmRemoveOk q = true) :
    ((handle_path env st (dirPath ++ ["package.json"])).1.removedNM =
        st.removedNM ++ [dirPath ++ ["node_modules"]] ↔
      (env.nmExists (dirPath ++ ["node_modules"]) = true ∧
       env.nmIsDir (dirPath ++ ["node_modules"]) = true)) ∧
    (env.nmIsDir (dirPath ++ ["node_modules"]) = false →
      (handle_path env st (dirPath ++ ["package.json"])).1.removedNM =
        st.removedNM) ∧
    (handle_path env st (dirPath ++ ["package.json"])).2 = true ∧
    (handle_path env st (dirPath ++ ["package.json"])).1.cm = st.cm ∧
    (handle_path env st (dirPath ++ ["package.json"])).1.nextPid = st.nextPid ∧
    (handle_path env st (dirPath ++ ["package.json"])).1.spawned = st.spawned := by
  rw [handle_path_package_json]
  have hself : ¬(st.removedNM = st.removedNM ++ [dirPath ++ ["node_modules"]]) := by
    intro habs
    have := congrArg List.length habs
    simp at this
  by_cases hex : env.nmExists (dirPath ++ ["node_modules"]) = true
  · by_cases hdir : env.nmIsDir (dirPath ++ ["node_modules"]) = true
    · have hred : new_child_node_modules env st (dirPath ++ ["node_modules"]) =
          ({ st with removedNM := st.removedNM ++ [dirPath ++ ["node_modules"]] },
            true) := by
        simp [new_child_node_modules, hex, hmeta (dirPath ++ ["node_modules"]),
          hdir, hrem (dirPath ++ ["node_modules"])]
      rw [hred]
      refine ⟨by simp [hex, hdir], ?_, rfl, rfl, rfl, rfl⟩
      intro hdf
      rw [hdf] at hdir
      simp at hdir
    · have hred : new_child_node_modules env st (dirPath ++ ["node_modules"]) =
          (st, true) := by
        simp [new_child_node_modules, hex, hmeta (dirPath ++ ["node_modules"]),
          hdir]
      rw [hred]
      refine ⟨?_, fun _ => rfl, rfl, rfl, rfl, rfl⟩
      constructor
      · intro habs
        exact absurd habs hself
      · intro hand
        exact absurd hand.2 hdir
  · have hred : new_child_node_modules env st (dirPath ++ ["node_modules"]) =
        (st, true) := by
      simp [new_child_node_modules, hex]
    rw [hred]
    refine ⟨?_, fun _ => rfl, rfl, rfl, rfl, rfl⟩
    constructor
    · intro habs
      exact absurd habs hself
    · intro hand
      exact absurd hand.1 hex

theorem package_json_removal_witness :
    (handle_path env0 (initState 4) (["a"] ++ ["package.json"])).2 = true :=
  (package_json_removal env0 (initState 4) ["a"]
    (fun _ => rfl) (fun _ => rfl)).2.2.1

end CodeClean
